import Mathlib

/-! Predefined FSE tables of the zstd decoder (`zstd/fse_predefined.go`).

A shallow embedding of `fillBase` and of the package `init` function, followed by
the properties of the tables they build.

Conventions of the embedding:

* a Go slice is a `List`; a write `dst[i] = v` is `List.set`;
* `uint32` / `uint8` values are natural numbers, and every `uint32` operation of
  the source is reduced modulo `2 ^ 32` explicitly;
* a Go `panic` is an explicit outcome.  Because `fillBase` writes into the
  caller's slice, its panic outcomes carry the contents of `dst` at the moment
  of the panic.
-/

namespace Zstd

/-! ## Data model -/

/-- Go: `type baseOffset struct { baseLine uint32; addBits uint8 }`. -/
structure baseOffset where
  baseLine : Nat
  addBits : Nat
deriving DecidableEq, Repr

/-- The zero value of `baseOffset`, as produced by `make([]baseOffset, n)`. -/
def baseOffset.zero : baseOffset := ⟨0, 0⟩

/-- Go: `math.MaxInt32`. -/
def maxInt32 : Nat := 2 ^ 31 - 1

/-- Modulus of `uint32` arithmetic. -/
def u32 : Nat := 2 ^ 32

/-- Go array type `[3]T`: the shape of the globals `fsePredef` and
`symbolTableX`. -/
structure Array3 (α : Type) where
  x0 : α
  x1 : α
  x2 : α
deriving DecidableEq, Repr

/-- Go: `type tableIndex uint8`.  Only the three constants below exist, and they
are the indexes of the two `[3]` arrays. -/
abbrev tableIndex : Type := Fin 3

/-- Go: `tableLiteralLengths tableIndex = 0`. -/
def tableLiteralLengths : tableIndex := 0
/-- Go: `tableOffsets tableIndex = 1`. -/
def tableOffsets : tableIndex := 1
/-- Go: `tableMatchLengths tableIndex = 2`. -/
def tableMatchLengths : tableIndex := 2

/-- Go: `a[i]` on a `[3]T`. -/
def Array3.get {α : Type} (a : Array3 α) (i : tableIndex) : α :=
  match i with
  | 0 => a.x0
  | 1 => a.x1
  | 2 => a.x2

/-- Go: `a[i] = v` on a `[3]T`. -/
def Array3.set {α : Type} (a : Array3 α) (i : tableIndex) (v : α) : Array3 α :=
  match i with
  | 0 => { a with x0 := v }
  | 1 => { a with x1 := v }
  | 2 => { a with x2 := v }

/-! ## `fillBase` -/

/-- Outcome of a call of `fillBase`: normal return, or one of its two panics.
Each outcome carries the contents of the destination slice at that moment. -/
inductive FillOutcome where
  | returned (dst : List baseOffset)
  | panicLen (dst : List baseOffset)
  | panicOverflow (dst : List baseOffset)
deriving DecidableEq, Repr

/-- Go: `1 << bit` evaluated in `uint32` (the untyped constant takes the type of
`base`); the bits shifted out are lost, so the value is `0` once `bit ≥ 32`. -/
def shl1 (bit : Nat) : Nat := 2 ^ bit % u32

/-- The `for i, bit := range bits` loop of `fillBase`, started at index `i` with
the remaining `bits`:

    if base > math.MaxInt32 { panic(...) }
    dst[i] = baseOffset{baseLine: base, addBits: bit}
    base += 1 << bit
-/
def fillBase.loop (dst : List baseOffset) (base : Nat) (i : Nat) : List Nat → FillOutcome
  | [] => .returned dst
  | bit :: rest =>
    if base > maxInt32 then .panicOverflow dst
    else fillBase.loop (dst.set i ⟨base, bit⟩) ((base + shl1 bit) % u32) (i + 1) rest

/-- Go: `func fillBase(dst []baseOffset, base uint32, bits ...uint8)`. -/
def fillBase (dst : List baseOffset) (base : Nat) (bits : List Nat) : FillOutcome :=
  if bits.length ≠ dst.length then .panicLen dst
  else fillBase.loop dst base 0 bits

/-- The baseline that the contract of `fillBase` assigns to entry `i`, as a
mathematical integer: `base + Σ_{j<i} 2 ^ bits[j]`. -/
def specBaseline (base : Nat) (bits : List Nat) (i : Nat) : Nat :=
  base + ((bits.take i).map (fun b => 2 ^ b)).sum

/-! ## `init`, first half: the transformation tables `symbolTableX` -/

/-- Modelled from the spec: the constant `maxOffsetBits` is declared in another
file of the package; the specification fixes the offset alphabet at
`maxOffsetBits + 1 = 31` symbols with extra-bit counts up to 30. -/
def maxOffsetBits : Nat := 30

/-- Panics that can be raised while a transformation table is assembled. -/
inductive Panic where
  /-- Raised by `fillBase`: `len(dst) != len(bits)`. -/
  | fillLen
  /-- Raised by `fillBase`: `invalid decoding table, base overflows int32`. -/
  | fillOverflow
  /-- Go run-time panic: index out of range. -/
  | indexOutOfRange
  /-- Go run-time panic: slice bounds out of range. -/
  | sliceBounds
deriving DecidableEq, Repr

/-- Go: `xs[i] = v` on a slice, with the run-time bounds check. -/
def setIndex {α : Type} (xs : List α) (i : Nat) (v : α) : Except Panic (List α) :=
  if i < xs.length then .ok (xs.set i v) else .error .indexOutOfRange

/-- Go: `fillBase(tmp[k:], base, bits...)` as seen by the caller.  The slice
`tmp[k:]` shares its backing array with `tmp`, so after a normal return the first
`k` entries of `tmp` are unchanged and the rest is what `fillBase` wrote. -/
def fillBaseFrom (tmp : List baseOffset) (k : Nat) (base : Nat) (bits : List Nat) :
    Except Panic (List baseOffset) :=
  if k > tmp.length then .error .sliceBounds
  else
    match fillBase (tmp.drop k) base bits with
    | .returned out => .ok (tmp.take k ++ out)
    | .panicLen _ => .error .fillLen
    | .panicOverflow _ => .error .fillOverflow

/-- The extra-bit counts passed to `fillBase` for the literal-length codes. -/
def literalLengthBits : List Nat :=
  [1, 1, 1, 1, 2, 2, 3, 3, 4, 6, 7, 8, 9, 10, 11, 12, 13, 14, 15, 16]

/-- The extra-bit counts passed to `fillBase` for the match-length codes. -/
def matchLengthBits : List Nat :=
  [1, 1, 1, 1, 2, 2, 3, 3, 4, 4, 5, 7, 8, 9, 10, 11, 12, 13, 14, 15, 16]

/-- The extra-bit counts passed to `fillBase` for the offset codes. -/
def offsetBits : List Nat :=
  [2, 3, 4, 5, 6, 7, 8, 9, 10, 11, 12, 13, 14, 15, 16, 17, 18, 19, 20, 21, 22, 23, 24, 25, 26,
    27, 28, 29, 30]

/-- Literals length codes:

    tmp := make([]baseOffset, 36)
    for i := range tmp[:16] { tmp[i] = baseOffset{baseLine: uint32(i), addBits: 0} }
    fillBase(tmp[16:], 16, 1, 1, 1, 1, 2, 2, 3, 3, 4, 6, 7, ..., 16)
-/
def init.literalLengths : Except Panic (List baseOffset) := do
  let tmp := List.replicate 36 baseOffset.zero
  let tmp ← (List.range 16).foldlM (fun t i => setIndex t i ⟨i % u32, 0⟩) tmp
  fillBaseFrom tmp 16 16 literalLengthBits

/-- Match length codes:

    tmp = make([]baseOffset, 53)
    for i := range tmp[:32] { tmp[i] = baseOffset{baseLine: uint32(i) + 3, addBits: 0} }
    fillBase(tmp[32:], 35, 1, 1, 1, 1, 2, 2, 3, 3, 4, 4, 5, 7, ..., 16)
-/
def init.matchLengths : Except Panic (List baseOffset) := do
  let tmp := List.replicate 53 baseOffset.zero
  let tmp ← (List.range 32).foldlM (fun t i => setIndex t i ⟨(i % u32 + 3) % u32, 0⟩) tmp
  fillBaseFrom tmp 32 35 matchLengthBits

/-- Offset codes, for a given value `mob` of the constant `maxOffsetBits`:

    tmp = make([]baseOffset, maxOffsetBits+1)
    tmp[1] = baseOffset{baseLine: 1, addBits: 1}
    fillBase(tmp[2:], 1, 2, 3, 4, ..., 30)
-/
def init.offsets (mob : Nat) : Except Panic (List baseOffset) := do
  let tmp := List.replicate (mob + 1) baseOffset.zero
  let tmp ← setIndex tmp 1 ⟨1, 1⟩
  fillBaseFrom tmp 2 1 offsetBits

/-- Go: `symbolTableX[idx] = tmp`, reached only when the assembly of `tmp` did
not panic.  A panic carries the value of the global at that moment. -/
def init.store (st : Array3 (List baseOffset)) (idx : tableIndex)
    (tmp : Except Panic (List baseOffset)) :
    Except (Panic × Array3 (List baseOffset)) (Array3 (List baseOffset)) :=
  match tmp with
  | .error p => .error (p, st)
  | .ok t => .ok (st.set idx t)

/-- First half of `init` (up to `symbolTableX[tableOffsets] = tmp`), as a
transformer of the global `symbolTableX`. -/
def init.symbolTables (mob : Nat) (st : Array3 (List baseOffset)) :
    Except (Panic × Array3 (List baseOffset)) (Array3 (List baseOffset)) := do
  let st ← init.store st tableLiteralLengths init.literalLengths
  let st ← init.store st tableMatchLengths init.matchLengths
  init.store st tableOffsets (init.offsets mob)

/-! ## `init`, second half: the predefined decoders `fsePredef` -/

/-- The fields of Go's `fseDecoder` that `init` itself assigns.  The struct is
declared in another file of the package; everything else in it (the decoding
table `dt` and the scratch space of the builder) belongs to the external
`buildDtable` / `transform` and is kept abstract as `ext : D`.  `norm` is a
fixed-size `int16` array in Go; its size is the length of the list. -/
structure fseDecoder (D : Type) where
  ext : D
  symbolLen : Nat
  actualTableLog : Nat
  norm : List Int
  preDefined : Bool
deriving DecidableEq, Repr

/-- Go builtin `copy(dst, src)`: copies `min(len(dst), len(src))` elements to the
front of `dst` and returns that number together with the new `dst`. -/
def copy {α : Type} (dst src : List α) : List α × Nat :=
  let n := min dst.length src.length
  (src.take n ++ dst.drop n, n)

/-- The `[]int16{...}` literal copied into `f.norm` for the literal lengths. -/
def normLiteralLengths : List Int :=
  [4, 3, 2, 2, 2, 2, 2, 2, 2, 2, 2, 2, 2, 1, 1, 1,
    2, 2, 2, 2, 2, 2, 2, 2, 2, 3, 2, 1, 1, 1, 1, 1,
    -1, -1, -1, -1]

/-- The `[]int16{...}` literal copied into `f.norm` for the offsets. -/
def normOffsets : List Int :=
  [1, 1, 1, 1, 1, 1, 2, 2, 2, 1, 1, 1, 1, 1, 1, 1,
    1, 1, 1, 1, 1, 1, 1, 1, -1, -1, -1, -1, -1]

/-- The `[]int16{...}` literal copied into `f.norm` for the match lengths. -/
def normMatchLengths : List Int :=
  [1, 4, 3, 2, 2, 2, 2, 2, 2, 1, 1, 1, 1, 1, 1, 1,
    1, 1, 1, 1, 1, 1, 1, 1, 1, 1, 1, 1, 1, 1, 1, 1,
    1, 1, 1, 1, 1, 1, 1, 1, 1, 1, 1, 1, 1, 1, -1, -1,
    -1, -1, -1, -1, -1]

/-- The frequency literal that the `switch tableIndex(i)` of `init` copies into
`f.norm`. -/
def init.normOf (i : tableIndex) : List Int :=
  match i with
  | 0 => normLiteralLengths
  | 1 => normOffsets
  | 2 => normMatchLengths

/-- The `switch tableIndex(i)` of `init`, acting on `f := &fsePredef[i]`:

    f.actualTableLog = 6 / 5 / 6
    copy(f.norm[:], []int16{...})
    f.symbolLen = 36 / 29 / 53
-/
def init.defaults {D : Type} (i : tableIndex) (f : fseDecoder D) : fseDecoder D :=
  match i with
  | 0 => { f with actualTableLog := 6, norm := (copy f.norm normLiteralLengths).1, symbolLen := 36 }
  | 1 => { f with actualTableLog := 5, norm := (copy f.norm normOffsets).1, symbolLen := 29 }
  | 2 => { f with actualTableLog := 6, norm := (copy f.norm normMatchLengths).1, symbolLen := 53 }

/-- The package-level variables `fsePredef` and `symbolTableX`. -/
structure Globals (D : Type) where
  fsePredef : Array3 (fseDecoder D)
  symbolTableX : Array3 (List baseOffset)
deriving DecidableEq, Repr

/-- Panics of `init`: one raised while the transformation tables are assembled,
or `panic(fmt.Errorf("building table %v: %v", tableIndex(i), err))`. -/
inductive InitPanic (E : Type) where
  | table (p : Panic)
  | buildingTable (i : tableIndex) (err : E)
deriving DecidableEq, Repr

/-- One iteration of `for i := range fsePredef[:]`.  The external methods
`buildDtable` and `transform` have pointer receivers: they return the decoder as
they left it together with their error, if any.  A panic carries the globals at
that moment. -/
def init.build {D E : Type} (buildDtable : fseDecoder D → fseDecoder D × Option E)
    (transform : fseDecoder D → List baseOffset → fseDecoder D × Option E)
    (g : Globals D) (i : tableIndex) : Except (InitPanic E × Globals D) (Globals D) :=
  let f := init.defaults i (g.fsePredef.get i)
  match buildDtable f with
  | (f, some err) => .error (.buildingTable i err, { g with fsePredef := g.fsePredef.set i f })
  | (f, none) =>
    match transform f (g.symbolTableX.get i) with
    | (f, some err) => .error (.buildingTable i err, { g with fsePredef := g.fsePredef.set i f })
    | (f, none) => .ok { g with fsePredef := g.fsePredef.set i { f with preDefined := true } }

/-- Go: `func init()`, run on the globals `g`, for a given value `mob` of the
constant `maxOffsetBits`. -/
def init {D E : Type} (mob : Nat) (buildDtable : fseDecoder D → fseDecoder D × Option E)
    (transform : fseDecoder D → List baseOffset → fseDecoder D × Option E)
    (g : Globals D) : Except (InitPanic E × Globals D) (Globals D) :=
  match init.symbolTables mob g.symbolTableX with
  | .error (p, st) => .error (.table p, { g with symbolTableX := st })
  | .ok st =>
    [tableLiteralLengths, tableOffsets, tableMatchLengths].foldlM
      (init.build buildDtable transform) { g with symbolTableX := st }

/-- The value of the global `symbolTableX` once the first half of `init` has run
on zero-valued globals (on a panic: the value at that moment). -/
def symbolTableX : Array3 (List baseOffset) :=
  match init.symbolTables maxOffsetBits ⟨[], [], []⟩ with
  | .ok t => t
  | .error (_, t) => t

/-- Go zero value of an `fseDecoder` whose `norm` array has `cap` entries. -/
def fseDecoder.zero {D : Type} (cap : Nat) (d : D) : fseDecoder D :=
  { ext := d, symbolLen := 0, actualTableLog := 0, norm := List.replicate cap 0,
    preDefined := false }

/-- Go: `f.norm[:f.symbolLen]`, the frequencies of the symbols in use. -/
def fseDecoder.activeNorm {D : Type} (f : fseDecoder D) : List Int :=
  f.norm.take f.symbolLen

/-- The specification's validity condition for a normalized distribution: every
frequency is positive or `-1`, and the positive frequencies plus the number of
`-1` entries add up to `2 ^ tableLog`. -/
def specValidNormalization (tableLog : Nat) (freqs : List Int) : Prop :=
  (∀ x ∈ freqs, 0 < x ∨ x = -1) ∧
    (freqs.filter (fun x => 0 < x)).sum + (freqs.count (-1) : Int) = 2 ^ tableLog

/-- Checker used in proofs: `r` holds between every two adjacent entries of a
list. -/
def adjacentAll {α : Type} (r : α → α → Bool) : List α → Bool
  | a :: b :: l => r a b && adjacentAll r (b :: l)
  | _ => true

/-- The slice `tmp` of the literal-length codes at the moment `init` calls
`fillBase(tmp[16:], 16, ...)`. -/
def init.literalLengths.tmp : Except Panic (List baseOffset) :=
  (List.range 16).foldlM (fun t i => setIndex t i ⟨i % u32, 0⟩)
    (List.replicate 36 baseOffset.zero)

/-- The slice `tmp` of the match-length codes at the moment `init` calls
`fillBase(tmp[32:], 35, ...)`. -/
def init.matchLengths.tmp : Except Panic (List baseOffset) :=
  (List.range 32).foldlM (fun t i => setIndex t i ⟨(i % u32 + 3) % u32, 0⟩)
    (List.replicate 53 baseOffset.zero)

/-- The slice `tmp` of the offset codes at the moment `init` calls
`fillBase(tmp[2:], 1, ...)`. -/
def init.offsets.tmp (mob : Nat) : Except Panic (List baseOffset) :=
  setIndex (List.replicate (mob + 1) baseOffset.zero) 1 ⟨1, 1⟩

/-- The operands `(base, 1 << bit)` of every `base += 1 << bit` that the loop of
`fillBase` executes, in order; the loop stops at the first failed overflow
check. -/
def fillBase.additions (base : Nat) : List Nat → List (Nat × Nat)
  | [] => []
  | bit :: rest =>
    if base > maxInt32 then []
    else (base, shl1 bit) :: fillBase.additions ((base + shl1 bit) % u32) rest

/-- Checker used in proofs: the value ranges `[baseLine, baseLine + 2 ^ addBits)`
of the entries of a table, taken in order, tile the interval `[lo, hi)`. -/
def tiles : Nat → List baseOffset → Nat → Bool
  | lo, [], hi => decide (lo = hi)
  | lo, x :: rest, hi => decide (x.baseLine = lo) && tiles (lo + 2 ^ x.addBits) rest hi

/-- The decoder and error that `f.buildDtable()` returns in iteration `i` of
`init` run on the globals `g`: the call is made on `fsePredef[i]` as the `switch`
left it. -/
def init.built {D E : Type} (buildDtable : fseDecoder D → fseDecoder D × Option E)
    (g : Globals D) (i : tableIndex) : fseDecoder D × Option E :=
  buildDtable (init.defaults i (g.fsePredef.get i))

/-- The decoder and error that `f.transform(symbolTableX[i])` returns in iteration
`i` of `init` run on the globals `g`: the call is made on the decoder that
`buildDtable` left, with the transformation table of index `i`. -/
def init.transformed {D E : Type} (buildDtable : fseDecoder D → fseDecoder D × Option E)
    (transform : fseDecoder D → List baseOffset → fseDecoder D × Option E)
    (g : Globals D) (i : tableIndex) : fseDecoder D × Option E :=
  transform (init.built buildDtable g i).1 (symbolTableX.get i)

/-- Go zero value of the package-level variables, with `norm` arrays of `cap`
entries. -/
def Globals.zero {D : Type} (cap : Nat) (d : D) : Globals D :=
  { fsePredef := ⟨fseDecoder.zero cap d, fseDecoder.zero cap d, fseDecoder.zero cap d⟩,
    symbolTableX := ⟨[], [], []⟩ }

/-! ## Properties of `fillBase` -/

theorem specBaseline_zero (base : Nat) (bits : List Nat) : specBaseline base bits 0 = base := by
  simp [specBaseline]

theorem specBaseline_succ (base b : Nat) (rest : List Nat) (k : Nat) :
    specBaseline base (b :: rest) (k + 1) = specBaseline (base + 2 ^ b) rest k := by
  simp [specBaseline, Nat.add_assoc]

/-- When the next baseline still fits in an `int32`, the `uint32` update
`base += 1 << bit` is the exact sum. -/
theorem next_base_exact (base b : Nat) (h : base + 2 ^ b ≤ maxInt32) :
    (base + shl1 b) % u32 = base + 2 ^ b := by
  have h31 : maxInt32 < u32 := by decide
  have hb : 2 ^ b < u32 := by omega
  rw [shl1, Nat.mod_eq_of_lt hb, Nat.mod_eq_of_lt (by omega)]

/-- The loop of `fillBase` from index `i` on, under the fit condition of the
contract: it returns, keeps the length, leaves the entries below `i` alone and
writes the contract's entries at `i, i + 1, ...`. -/
theorem fillBase.loop_spec (bits : List Nat) :
    ∀ (dst : List baseOffset) (base i : Nat), i + bits.length ≤ dst.length →
      (∀ k, k < bits.length → specBaseline base bits k ≤ maxInt32) →
      ∃ out, fillBase.loop dst base i bits = .returned out ∧ out.length = dst.length ∧
        (∀ j, j < i → out[j]? = dst[j]?) ∧
        ∀ k (hk : k < bits.length), out[i + k]? = some ⟨specBaseline base bits k, bits[k]⟩ := by
  induction bits with
  | nil =>
    intro dst base i _ _
    exact ⟨dst, rfl, rfl, fun _ _ => rfl, fun k hk => absurd hk (Nat.not_lt_zero k)⟩
  | cons b rest ih =>
    intro dst base i hlen hfit
    have h0 : base ≤ maxInt32 := by
      have := hfit 0 (by simp)
      rwa [specBaseline_zero] at this
    have hfit2 : ∀ k, k < rest.length →
        specBaseline ((base + shl1 b) % u32) rest k ≤ maxInt32 := by
      intro k hk
      have h1 := hfit 1 (by simp; omega)
      rw [specBaseline_succ, specBaseline_zero] at h1
      have hk1 := hfit (k + 1) (by simpa using hk)
      rw [next_base_exact base b h1]
      rwa [specBaseline_succ] at hk1
    have hlen2 : i + 1 + rest.length ≤ (dst.set i ⟨base, b⟩).length := by
      simp only [List.length_set]
      simp only [List.length_cons] at hlen
      omega
    obtain ⟨out, hout, hl, hlow, hhigh⟩ :=
      ih (dst.set i ⟨base, b⟩) ((base + shl1 b) % u32) (i + 1) hlen2 hfit2
    refine ⟨out, ?_, ?_, ?_, ?_⟩
    · simp only [fillBase.loop, if_neg (Nat.not_lt.mpr h0)]
      exact hout
    · simpa using hl
    · intro j hj
      rw [hlow j (by omega)]
      exact List.getElem?_set_ne (by omega)
    · intro k hk
      cases k with
      | zero =>
        have hi : i < dst.length := by
          simp only [List.length_cons] at hlen
          omega
        rw [Nat.add_zero, hlow i (by omega), List.getElem?_set_self hi]
        simp [specBaseline_zero]
      | succ k =>
        have hk2 : k < rest.length := by simpa using hk
        have h1 := hfit 1 (by simp; omega)
        rw [specBaseline_succ, specBaseline_zero] at h1
        have := hhigh k hk2
        rw [next_base_exact base b h1] at this
        rw [specBaseline_succ, show i + (k + 1) = i + 1 + k by omega, this]
        simp

/-- The loop of `fillBase` never raises the length panic. -/
theorem fillBase.loop_ne_panicLen (bits : List Nat) :
    ∀ (dst : List baseOffset) (base i : Nat) (d : List baseOffset),
      fillBase.loop dst base i bits ≠ .panicLen d := by
  induction bits with
  | nil => intro dst base i d h; simp [fillBase.loop] at h
  | cons b rest ih =>
    intro dst base i d h
    simp only [fillBase.loop] at h
    split at h
    · simp at h
    · exact ih _ _ _ _ h

/-- The overflow check of `fillBase` does fire when every shift count is below
32: if some entry's baseline exceeds `2 ^ 31 - 1`, the loop ends in the overflow
panic. -/
theorem fillBase.loop_overflow (bits : List Nat) :
    ∀ (dst : List baseOffset) (base i : Nat), (∀ b ∈ bits, b < 32) →
      (∃ k, k < bits.length ∧ maxInt32 < specBaseline base bits k) →
      ∃ d, fillBase.loop dst base i bits = .panicOverflow d := by
  induction bits with
  | nil =>
    intro dst base i _ h
    obtain ⟨k, hk, _⟩ := h
    exact absurd hk (Nat.not_lt_zero k)
  | cons b rest ih =>
    intro dst base i hb h
    by_cases h0 : base > maxInt32
    · exact ⟨dst, by simp only [fillBase.loop, if_pos h0]⟩
    · obtain ⟨k, hk, hover⟩ := h
      cases k with
      | zero => rw [specBaseline_zero] at hover; exact absurd hover h0
      | succ k =>
        have hb32 : b < 32 := hb b (by simp)
        have hpow : 2 ^ b ≤ 2 ^ 31 := Nat.pow_le_pow_right (by decide) (by omega)
        have hmax : maxInt32 = 2 ^ 31 - 1 := rfl
        have hu : u32 = 2 ^ 31 + 2 ^ 31 := by decide
        have hlt : 2 ^ b < u32 := by omega
        have hsum : base + 2 ^ b < u32 := by omega
        have hnext : (base + shl1 b) % u32 = base + 2 ^ b := by
          rw [shl1, Nat.mod_eq_of_lt hlt, Nat.mod_eq_of_lt hsum]
        rw [specBaseline_succ] at hover
        obtain ⟨d, hd⟩ := ih (dst.set i ⟨base, b⟩) (base + 2 ^ b) (i + 1)
          (fun x hx => hb x (by simp [hx])) ⟨k, by simpa using hk, hover⟩
        exact ⟨d, by simp only [fillBase.loop, if_neg h0, hnext]; exact hd⟩

/-- With every shift count below 32, `fillBase` reports an entry whose baseline
exceeds `2 ^ 31 - 1` by its overflow panic. -/
theorem fillBase_overflow_detected (dst : List baseOffset) (base : Nat) (bits : List Nat)
    (hlen : bits.length = dst.length) (hb : ∀ b ∈ bits, b < 32)
    (h : ∃ k, k < bits.length ∧ 2 ^ 31 - 1 < specBaseline base bits k) :
    ∃ d, fillBase dst base bits = .panicOverflow d := by
  obtain ⟨d, hd⟩ := fillBase.loop_overflow bits dst base 0 hb h
  exact ⟨d, by simp only [fillBase, ne_eq, hlen, not_true_eq_false, if_false]; exact hd⟩

/-- C1. Contract of `fillBase`: when `bits` has as many entries as `dst` and every
baseline `base + Σ_{j<i} 2 ^ bits[j]` (`i < n`) is at most `2 ^ 31 - 1`, the call
returns normally, and afterwards entry `i` of `dst` has that baseline and
`addBits = bits[i]`, for every `i < n`. -/
theorem fillBase_contract (dst : List baseOffset) (base : Nat) (bits : List Nat)
    (hlen : bits.length = dst.length)
    (hfit : ∀ i, i < bits.length → specBaseline base bits i ≤ 2 ^ 31 - 1) :
    ∃ out, fillBase dst base bits = .returned out ∧ out.length = dst.length ∧
      ∀ i (hi : i < bits.length),
        out[i]? = some { baseLine := specBaseline base bits i, addBits := bits[i] } := by
  obtain ⟨out, hout, hl, _, hhigh⟩ :=
    fillBase.loop_spec bits dst base 0 (by omega) (fun k hk => hfit k hk)
  refine ⟨out, ?_, hl, ?_⟩
  · simp only [fillBase, ne_eq, hlen, not_true_eq_false, if_false]
    exact hout
  · intro i hi
    simpa using hhigh i hi

/-- Instance of `fillBase_contract`: two slots filled from base 16 with extra-bit
counts 1 and 2. -/
theorem fillBase_contract_witness :
    ∃ out, fillBase [baseOffset.zero, baseOffset.zero] 16 [1, 2] = .returned out ∧
      out.length = [baseOffset.zero, baseOffset.zero].length ∧
      ∀ i (hi : i < [1, 2].length),
        out[i]? = some { baseLine := specBaseline 16 [1, 2] i, addBits := [1, 2][i] } :=
  fillBase_contract [baseOffset.zero, baseOffset.zero] 16 [1, 2] rfl (by decide)

/-- C2. The overflow check of `fillBase` misses shift counts of 32 and more: called
with `base = 1` and `bits = [32, 0]`, the baseline of entry 1 is
`1 + 2 ^ 32 > 2 ^ 31 - 1`, yet the call returns normally and stores baseline 1
for entry 1, because `1 << 32` is `0` in `uint32`. -/
theorem fillBase_overflow_missed :
    2 ^ 31 - 1 < specBaseline 1 [32, 0] 1 ∧
    fillBase [baseOffset.zero, baseOffset.zero] 1 [32, 0] =
      .returned [{ baseLine := 1, addBits := 32 }, { baseLine := 1, addBits := 0 }] := by
  decide

/-- C3. The length panic of `fillBase` is raised exactly when `len(bits)` differs
from `len(dst)`, and the destination it leaves behind is the unmodified `dst`. -/
theorem fillBase_length_panic (dst : List baseOffset) (base : Nat) (bits : List Nat)
    (d : List baseOffset) :
    fillBase dst base bits = .panicLen d ↔ bits.length ≠ dst.length ∧ d = dst := by
  unfold fillBase
  by_cases h : bits.length = dst.length
  · simp only [ne_eq, h, not_true_eq_false, if_false, false_and, iff_false]
    exact fillBase.loop_ne_panicLen bits dst base 0 d
  · simp only [ne_eq, h, not_false_eq_true, if_true, true_and, FillOutcome.panicLen.injEq]
    exact eq_comm

/-! ## Properties of the transformation tables -/

theorem adjacentAll_getElem {α : Type} (r : α → α → Bool) :
    ∀ (l : List α), adjacentAll r l = true →
      ∀ i (hi : i + 1 < l.length), r l[i] l[i + 1] = true
  | [], _, i, hi => absurd hi (Nat.not_lt_zero _)
  | [_], _, i, hi => by simp at hi
  | a :: b :: l, h, i, hi => by
    simp only [adjacentAll, Bool.and_eq_true] at h
    cases i with
    | zero => simpa using h.1
    | succ i =>
      have := adjacentAll_getElem r (b :: l) h.2 i (by simpa using hi)
      simpa using this

/-- A check that succeeds on `l.drop k` holds between any two adjacent entries
of `l` from index `k` on. -/
theorem adjacent_of_check {α : Type} (r : α → α → Bool) (l : List α) (k : Nat)
    (h : adjacentAll r (l.drop k) = true) :
    ∀ i (_ : k ≤ i) (hi : i + 1 < l.length), r l[i] l[i + 1] = true := by
  intro i hk hi
  have := adjacentAll_getElem r (l.drop k) h (i - k) (by simp only [List.length_drop]; omega)
  simp only [List.getElem_drop] at this
  have e1 : k + (i - k) = i := by omega
  have e2 : k + (i - k + 1) = i + 1 := by omega
  simpa only [e1, e2] using this

/-- Whatever the global held before, the first half of `init` returns normally
and leaves the three transformation tables `symbolTableX` in it. -/
theorem init.symbolTables_eq (st : Array3 (List baseOffset)) :
    init.symbolTables maxOffsetBits st = .ok symbolTableX := by
  have h0 : init.literalLengths = .ok symbolTableX.x0 := rfl
  have h1 : init.offsets maxOffsetBits = .ok symbolTableX.x1 := rfl
  have h2 : init.matchLengths = .ok symbolTableX.x2 := rfl
  simp only [init.symbolTables, init.store, h0, h1, h2, bind, Except.bind, Array3.set,
    tableLiteralLengths, tableOffsets, tableMatchLengths]

/-- An iteration of the second half of `init` leaves `symbolTableX` alone,
whether it completes or panics. -/
theorem init.build_symbolTableX {D E : Type}
    (buildDtable : fseDecoder D → fseDecoder D × Option E)
    (transform : fseDecoder D → List baseOffset → fseDecoder D × Option E)
    (g : Globals D) (i : tableIndex) :
    (∀ g2, init.build buildDtable transform g i = .ok g2 → g2.symbolTableX = g.symbolTableX) ∧
    (∀ p g2, init.build buildDtable transform g i = .error (p, g2) →
      g2.symbolTableX = g.symbolTableX) := by
  unfold init.build
  constructor
  · intro g2 h
    dsimp only at h
    split at h
    · cases h
    · split at h
      · cases h
      · cases h; rfl
  · intro p g2 h
    dsimp only at h
    split at h
    · cases h; rfl
    · split at h
      · cases h; rfl
      · cases h

/-- Every outcome of `init`, normal or panic in its second half, has the three
transformation tables `symbolTableX` in the global of that name. -/
theorem init_symbolTableX {D E : Type}
    (buildDtable : fseDecoder D → fseDecoder D × Option E)
    (transform : fseDecoder D → List baseOffset → fseDecoder D × Option E)
    (g : Globals D) :
    (∀ g2, init maxOffsetBits buildDtable transform g = .ok g2 →
      g2.symbolTableX = symbolTableX) ∧
    (∀ p g2, init maxOffsetBits buildDtable transform g = .error (p, g2) →
      g2.symbolTableX = symbolTableX) := by
  have hb := init.build_symbolTableX buildDtable transform
  simp only [init, init.symbolTables_eq, List.foldlM, bind, Except.bind, pure, Except.pure]
  constructor
  · intro g2 h
    split at h
    · cases h
    · rename_i g3 h3
      have e3 := (hb _ _).1 g3 h3
      split at h
      · cases h
      · rename_i g4 h4
        have e4 := (hb _ _).1 g4 h4
        split at h
        · cases h
        · rename_i g5 h5
          have e5 := (hb _ _).1 g5 h5
          cases h
          rw [e5, e4, e3]
  · intro p g2 h
    split at h
    · rename_i e h3
      cases h
      exact (hb _ _).2 _ _ h3
    · rename_i g3 h3
      have e3 := (hb _ _).1 g3 h3
      split at h
      · rename_i e h4
        cases h
        rw [(hb _ _).2 _ _ h4, e3]
      · rename_i g4 h4
        have e4 := (hb _ _).1 g4 h4
        split at h
        · rename_i e h5
          cases h
          rw [(hb _ _).2 _ _ h5, e4, e3]
        · cases h

/-- C4. After `init` every transformation table has its specified number of
entries (36 literal-length codes, 53 match-length codes, `maxOffsetBits + 1 = 31`
offset codes) and non-decreasing baselines: `baseLine[i] ≤ baseLine[i + 1]` for all
adjacent indices. -/
theorem symbolTableX_size_and_order (st : Array3 (List baseOffset)) :
    init.symbolTables maxOffsetBits st = .ok symbolTableX ∧
    (symbolTableX.get tableLiteralLengths).length = 36 ∧
    (symbolTableX.get tableMatchLengths).length = 53 ∧
    (symbolTableX.get tableOffsets).length = maxOffsetBits + 1 ∧
    maxOffsetBits + 1 = 31 ∧
    ∀ (a : tableIndex) (i : Nat) (hi : i + 1 < (symbolTableX.get a).length),
      (symbolTableX.get a)[i].baseLine ≤ (symbolTableX.get a)[i + 1].baseLine := by
  refine ⟨init.symbolTables_eq st, by decide, by decide, by decide, by decide, ?_⟩
  intro a i hi
  have hc : ∀ a : tableIndex,
      adjacentAll (fun x y : baseOffset => decide (x.baseLine ≤ y.baseLine))
        ((symbolTableX.get a).drop 0) = true := by decide
  simpa using adjacent_of_check _ (symbolTableX.get a) 0 (hc a) i (Nat.zero_le i) hi

/-- C5. After `init`, literal-length code `i` in `0..15` has the entry
`{baseLine = i, addBits = 0}` and match-length code `i` in `0..31` has the entry
`{baseLine = i + 3, addBits = 0}`. -/
theorem symbolTableX_direct_codes (st : Array3 (List baseOffset)) :
    init.symbolTables maxOffsetBits st = .ok symbolTableX ∧
    (∀ i, i < 16 →
      (symbolTableX.get tableLiteralLengths)[i]? = some { baseLine := i, addBits := 0 }) ∧
    (∀ i, i < 32 →
      (symbolTableX.get tableMatchLengths)[i]? = some { baseLine := i + 3, addBits := 0 }) :=
  ⟨init.symbolTables_eq st, by decide, by decide⟩

/-- C6. After `init`, inside the part of each table written by `fillBase`
(literal-length codes 16..35, match-length codes 32..52, offset codes 2..30) any
two adjacent entries satisfy `baseLine[i + 1] = baseLine[i] + 2 ^ addBits[i]`. -/
theorem symbolTableX_generated_recurrence (st : Array3 (List baseOffset)) :
    init.symbolTables maxOffsetBits st = .ok symbolTableX ∧
    (∀ (i : Nat) (_ : 16 ≤ i) (hi : i + 1 < (symbolTableX.get tableLiteralLengths).length),
      (symbolTableX.get tableLiteralLengths)[i + 1].baseLine =
        (symbolTableX.get tableLiteralLengths)[i].baseLine +
          2 ^ (symbolTableX.get tableLiteralLengths)[i].addBits) ∧
    (∀ (i : Nat) (_ : 32 ≤ i) (hi : i + 1 < (symbolTableX.get tableMatchLengths).length),
      (symbolTableX.get tableMatchLengths)[i + 1].baseLine =
        (symbolTableX.get tableMatchLengths)[i].baseLine +
          2 ^ (symbolTableX.get tableMatchLengths)[i].addBits) ∧
    (∀ (i : Nat) (_ : 2 ≤ i) (hi : i + 1 < (symbolTableX.get tableOffsets).length),
      (symbolTableX.get tableOffsets)[i + 1].baseLine =
        (symbolTableX.get tableOffsets)[i].baseLine +
          2 ^ (symbolTableX.get tableOffsets)[i].addBits) ∧
    (symbolTableX.get tableLiteralLengths).length = 36 ∧
    (symbolTableX.get tableMatchLengths).length = 53 ∧
    (symbolTableX.get tableOffsets).length = 31 := by
  refine ⟨init.symbolTables_eq st, ?_, ?_, ?_, by decide, by decide, by decide⟩
  · intro i hk hi
    simpa using adjacent_of_check
      (fun x y : baseOffset => decide (y.baseLine = x.baseLine + 2 ^ x.addBits)) _ 16
      (by decide) i hk hi
  · intro i hk hi
    simpa using adjacent_of_check
      (fun x y : baseOffset => decide (y.baseLine = x.baseLine + 2 ^ x.addBits)) _ 32
      (by decide) i hk hi
  · intro i hk hi
    simpa using adjacent_of_check
      (fun x y : baseOffset => decide (y.baseLine = x.baseLine + 2 ^ x.addBits)) _ 2
      (by decide) i hk hi

/-- C8, as stated, fails: after `init` on zero-valued globals, entries 2 and 3 of
the offset table are not `{baseLine 3, addBits 2}` and `{baseLine 7, addBits 3}`,
and the baseline of entry 2 is not the baseline of entry 1 plus `2 ^ 1`. -/
theorem offsets_scenario_refuted :
    init.symbolTables maxOffsetBits ⟨[], [], []⟩ = .ok symbolTableX ∧
    ¬ ((symbolTableX.get tableOffsets)[1]? = some { baseLine := 1, addBits := 1 } ∧
        (symbolTableX.get tableOffsets)[2]? = some { baseLine := 3, addBits := 2 } ∧
        (symbolTableX.get tableOffsets)[3]? = some { baseLine := 7, addBits := 3 }) :=
  ⟨init.symbolTables_eq _, by decide⟩

/-- C8, amended. After `init` the offset table has entry 1 = `{baseLine 1,
addBits 1}`, entry 2 = `{baseLine 1, addBits 2}` (the generator restarts at base
1), entry 3 = `{baseLine 5, addBits 3}` (`1 + 2 ^ 2`), and from entry 2 on every
later baseline is the previous baseline plus `2 ^` the previous `addBits`. -/
theorem offsets_scenario (st : Array3 (List baseOffset)) :
    init.symbolTables maxOffsetBits st = .ok symbolTableX ∧
    (symbolTableX.get tableOffsets)[1]? = some { baseLine := 1, addBits := 1 } ∧
    (symbolTableX.get tableOffsets)[2]? = some { baseLine := 1, addBits := 2 } ∧
    (symbolTableX.get tableOffsets)[3]? = some { baseLine := 5, addBits := 3 } ∧
    (symbolTableX.get tableOffsets).length = 31 ∧
    ∀ (i : Nat) (_ : 2 ≤ i) (hi : i + 1 < (symbolTableX.get tableOffsets).length),
      (symbolTableX.get tableOffsets)[i + 1].baseLine =
        (symbolTableX.get tableOffsets)[i].baseLine +
          2 ^ (symbolTableX.get tableOffsets)[i].addBits := by
  refine ⟨init.symbolTables_eq st, by decide, by decide, by decide, by decide, ?_⟩
  intro i hk hi
  simpa using adjacent_of_check
    (fun x y : baseOffset => decide (y.baseLine = x.baseLine + 2 ^ x.addBits)) _ 2
    (by decide) i hk hi

/-- C9. After `init`, literal-length codes 16..19 each have `addBits = 1`, and
literal-length code 20 has `baseLine = 16 + 2 + 2 + 2 + 2 = 24` and `addBits = 2`. -/
theorem literalLengths_scenario (st : Array3 (List baseOffset)) :
    init.symbolTables maxOffsetBits st = .ok symbolTableX ∧
    (∀ i, i < 20 → 16 ≤ i →
      ((symbolTableX.get tableLiteralLengths)[i]?).map baseOffset.addBits = some 1) ∧
    (symbolTableX.get tableLiteralLengths)[20]? =
      some { baseLine := 16 + 2 + 2 + 2 + 2, addBits := 2 } ∧
    16 + 2 + 2 + 2 + 2 = 24 :=
  ⟨init.symbolTables_eq st, by decide, by decide, by decide⟩

/-- C10. After `init` the offset table has the zero entry `{baseLine 0, addBits 0}`
at code 0, and every offset code `k` with `1 ≤ k ≤ 30` has `addBits = k`. -/
theorem offsets_addBits (st : Array3 (List baseOffset)) :
    init.symbolTables maxOffsetBits st = .ok symbolTableX ∧
    (symbolTableX.get tableOffsets)[0]? = some { baseLine := 0, addBits := 0 } ∧
    ∀ k, k < 31 → 1 ≤ k →
      ((symbolTableX.get tableOffsets)[k]?).map baseOffset.addBits = some k :=
  ⟨init.symbolTables_eq st, by decide, by decide⟩

/-! ## Properties of the default distributions -/

/-- Go `copy` into a destination at least as long as the source writes the whole
source to the front of the destination. -/
theorem copy_of_le {α : Type} (dst src : List α) (h : src.length ≤ dst.length) :
    (copy dst src).2 = src.length ∧ (copy dst src).1.take src.length = src := by
  simp [copy, Nat.min_eq_right h]

/-- C7. Each default distribution set up by `init` is a valid normalization,
provided the `norm` array of the decoder has room for the 53 match-length
frequencies: the number of frequencies copied into `norm` equals the declared
`symbolLen` (36 with table log 6 for literal lengths, 29 with table log 5 for
offsets, 53 with table log 6 for match lengths), every frequency is positive or
`-1`, and the positive frequencies plus the number of `-1` entries sum to
`2 ^ tableLog`. -/
theorem default_distributions_valid {D : Type} (i : tableIndex) (f : fseDecoder D)
    (hcap : 53 ≤ f.norm.length) :
    (init.defaults i f).norm = (copy f.norm (init.normOf i)).1 ∧
    (copy f.norm (init.normOf i)).2 = (init.defaults i f).symbolLen ∧
    (init.defaults i f).activeNorm = init.normOf i ∧
    specValidNormalization (init.defaults i f).actualTableLog (init.defaults i f).activeNorm ∧
    ((init.defaults i f).symbolLen, (init.defaults i f).actualTableLog) =
      (if i = tableLiteralLengths then (36, 6) else if i = tableOffsets then (29, 5)
        else (53, 6)) := by
  have key : ∀ src : List Int, src.length ≤ 53 →
      (copy f.norm src).2 = src.length ∧ (copy f.norm src).1.take src.length = src :=
    fun src h => copy_of_le f.norm src (by omega)
  have v0 : specValidNormalization 6 normLiteralLengths := by
    unfold specValidNormalization; decide
  have v1 : specValidNormalization 5 normOffsets := by
    unfold specValidNormalization; decide
  have v2 : specValidNormalization 6 normMatchLengths := by
    unfold specValidNormalization; decide
  match i with
  | 0 =>
    obtain ⟨h1, h2⟩ := key normLiteralLengths (by decide)
    have e : (init.defaults 0 f).activeNorm = normLiteralLengths := h2
    refine ⟨rfl, h1, e, ?_, rfl⟩
    rw [e]; exact v0
  | 1 =>
    obtain ⟨h1, h2⟩ := key normOffsets (by decide)
    have e : (init.defaults 1 f).activeNorm = normOffsets := h2
    refine ⟨rfl, h1, e, ?_, rfl⟩
    rw [e]; exact v1
  | 2 =>
    obtain ⟨h1, h2⟩ := key normMatchLengths (by decide)
    have e : (init.defaults 2 f).activeNorm = normMatchLengths := h2
    refine ⟨rfl, h1, e, ?_, rfl⟩
    rw [e]; exact v2

/-- Instance of `default_distributions_valid`: the offset distribution written
into a zero-valued decoder whose `norm` array has 256 entries. -/
theorem default_distributions_valid_witness :
    53 ≤ (fseDecoder.zero 256 ()).norm.length ∧
    (copy (fseDecoder.zero 256 ()).norm (init.normOf tableOffsets)).2 = 29 ∧
    (init.defaults tableOffsets (fseDecoder.zero 256 ())).symbolLen = 29 ∧
    specValidNormalization 5 (init.defaults tableOffsets (fseDecoder.zero 256 ())).activeNorm :=
  have hcap : 53 ≤ (fseDecoder.zero 256 ()).norm.length := by
    show 53 ≤ (List.replicate 256 (0 : Int)).length
    rw [List.length_replicate]
    omega
  have h := default_distributions_valid tableOffsets (fseDecoder.zero 256 ()) hcap
  ⟨hcap, h.2.1, rfl, h.2.2.2.1⟩

/-! ## Further properties of the transformation tables -/

/-- C11. After `init`, in the literal-length codes 16..35 and in the match-length
codes 32..52 the `addBits` values are non-decreasing with the code, every
`addBits` is at most 16, and the last code of each table (35 and 52) has
`addBits = 16`. -/
theorem length_codes_addBits_progression (st : Array3 (List baseOffset)) :
    init.symbolTables maxOffsetBits st = .ok symbolTableX ∧
    (∀ (i : Nat) (_ : 16 ≤ i) (hi : i + 1 < (symbolTableX.get tableLiteralLengths).length),
      (symbolTableX.get tableLiteralLengths)[i].addBits ≤
        (symbolTableX.get tableLiteralLengths)[i + 1].addBits) ∧
    (∀ (i : Nat) (_ : 32 ≤ i) (hi : i + 1 < (symbolTableX.get tableMatchLengths).length),
      (symbolTableX.get tableMatchLengths)[i].addBits ≤
        (symbolTableX.get tableMatchLengths)[i + 1].addBits) ∧
    (∀ x ∈ symbolTableX.get tableLiteralLengths, x.addBits ≤ 16) ∧
    (∀ x ∈ symbolTableX.get tableMatchLengths, x.addBits ≤ 16) ∧
    ((symbolTableX.get tableLiteralLengths)[35]?).map baseOffset.addBits = some 16 ∧
    ((symbolTableX.get tableMatchLengths)[52]?).map baseOffset.addBits = some 16 ∧
    (symbolTableX.get tableLiteralLengths).length = 36 ∧
    (symbolTableX.get tableMatchLengths).length = 53 := by
  refine ⟨init.symbolTables_eq st, ?_, ?_, by decide, by decide, by decide, by decide,
    by decide, by decide⟩
  · intro i hk hi
    simpa using adjacent_of_check
      (fun x y : baseOffset => decide (x.addBits ≤ y.addBits)) _ 16 (by decide) i hk hi
  · intro i hk hi
    simpa using adjacent_of_check
      (fun x y : baseOffset => decide (x.addBits ≤ y.addBits)) _ 32 (by decide) i hk hi

/-- C15. Closed form of the offset table: after `init`, every offset code `k` with
`2 ≤ k ≤ 30` has the entry `{baseLine = 2 ^ k - 3, addBits = k}`, and the largest
baseline of the table is `2 ^ 30 - 3`. -/
theorem offsets_closed_form (st : Array3 (List baseOffset)) :
    init.symbolTables maxOffsetBits st = .ok symbolTableX ∧
    (∀ k, k < 31 → 2 ≤ k →
      (symbolTableX.get tableOffsets)[k]? = some { baseLine := 2 ^ k - 3, addBits := k }) ∧
    (symbolTableX.get tableOffsets).length = 31 ∧
    (∀ x ∈ symbolTableX.get tableOffsets, x.baseLine ≤ 2 ^ 30 - 3) ∧
    (∃ x ∈ symbolTableX.get tableOffsets, x.baseLine = 2 ^ 30 - 3) :=
  ⟨init.symbolTables_eq st, by decide, by decide, by decide, by decide⟩

/-- C17. Every symbol of a default distribution has a transformation entry: for
each alphabet the `symbolLen` set by `init` is at most the length of the
transformation table of the same index (36 ≤ 36, 29 ≤ 31, 53 ≤ 53), so every
symbol below `symbolLen` indexes an entry of `symbolTableX[a]`. -/
theorem symbolLen_within_table {D : Type} (st : Array3 (List baseOffset))
    (f : fseDecoder D) :
    init.symbolTables maxOffsetBits st = .ok symbolTableX ∧
    (∀ a : tableIndex, (init.defaults a f).symbolLen ≤ (symbolTableX.get a).length) ∧
    (∀ (a : tableIndex) (s : Nat), s < (init.defaults a f).symbolLen →
      ∃ x, (symbolTableX.get a)[s]? = some x) ∧
    ((init.defaults tableLiteralLengths f).symbolLen = 36 ∧
      (symbolTableX.get tableLiteralLengths).length = 36) ∧
    ((init.defaults tableOffsets f).symbolLen = 29 ∧
      (symbolTableX.get tableOffsets).length = 31) ∧
    ((init.defaults tableMatchLengths f).symbolLen = 53 ∧
      (symbolTableX.get tableMatchLengths).length = 53) := by
  have hlen : ∀ a : tableIndex,
      (init.defaults a f).symbolLen ≤ (symbolTableX.get a).length := by
    intro a
    match a with
    | 0 => exact (by decide : 36 ≤ (symbolTableX.get 0).length)
    | 1 => exact (by decide : 29 ≤ (symbolTableX.get 1).length)
    | 2 => exact (by decide : 53 ≤ (symbolTableX.get 2).length)
  refine ⟨init.symbolTables_eq st, hlen, ?_, ⟨rfl, by decide⟩, ⟨rfl, by decide⟩,
    ⟨rfl, by decide⟩⟩
  intro a s hs
  have h : s < (symbolTableX.get a).length := Nat.lt_of_lt_of_le hs (hlen a)
  exact ⟨(symbolTableX.get a)[s], List.getElem?_eq_getElem h⟩

/-- C13. With `maxOffsetBits = 30`, each of the three `fillBase` calls of `init`
gets as many extra-bit counts as destination slots (20, 21 and 29), every
baseline it computes, the one after the last entry included, is at most
`2 ^ 31 - 1`, and the call returns normally; so `init` builds its tables without
a panic and every stored baseline fits in 31 bits. -/
theorem init_fillBase_calls_safe (st : Array3 (List baseOffset)) :
    (∃ t, init.literalLengths.tmp = .ok t ∧
      init.literalLengths = fillBaseFrom t 16 16 literalLengthBits ∧
      (t.drop 16).length = 20 ∧ literalLengthBits.length = 20 ∧
      (∀ i, i < 21 → specBaseline 16 literalLengthBits i ≤ 2 ^ 31 - 1) ∧
      (∀ p ∈ fillBase.additions 16 literalLengthBits, p.1 ≤ 2 ^ 31 - 1 ∧ p.1 + p.2 ≤ 2 ^ 31 - 1) ∧
      ∃ out, fillBase (t.drop 16) 16 literalLengthBits = .returned out) ∧
    (∃ t, init.matchLengths.tmp = .ok t ∧
      init.matchLengths = fillBaseFrom t 32 35 matchLengthBits ∧
      (t.drop 32).length = 21 ∧ matchLengthBits.length = 21 ∧
      (∀ i, i < 22 → specBaseline 35 matchLengthBits i ≤ 2 ^ 31 - 1) ∧
      (∀ p ∈ fillBase.additions 35 matchLengthBits, p.1 ≤ 2 ^ 31 - 1 ∧ p.1 + p.2 ≤ 2 ^ 31 - 1) ∧
      ∃ out, fillBase (t.drop 32) 35 matchLengthBits = .returned out) ∧
    (∃ t, init.offsets.tmp maxOffsetBits = .ok t ∧
      init.offsets maxOffsetBits = fillBaseFrom t 2 1 offsetBits ∧
      (t.drop 2).length = 29 ∧ offsetBits.length = 29 ∧
      (∀ i, i < 30 → specBaseline 1 offsetBits i ≤ 2 ^ 31 - 1) ∧
      (∀ p ∈ fillBase.additions 1 offsetBits, p.1 ≤ 2 ^ 31 - 1 ∧ p.1 + p.2 ≤ 2 ^ 31 - 1) ∧
      ∃ out, fillBase (t.drop 2) 1 offsetBits = .returned out) ∧
    init.symbolTables maxOffsetBits st = .ok symbolTableX ∧
    (∀ (a : tableIndex), ∀ x ∈ symbolTableX.get a, x.baseLine < 2 ^ 31) ∧
    maxOffsetBits = 30 := by
  refine ⟨⟨(symbolTableX.get tableLiteralLengths).take 16 ++ List.replicate 20 baseOffset.zero,
      rfl, rfl, by decide, by decide, by decide, by decide, ?_⟩,
    ⟨(symbolTableX.get tableMatchLengths).take 32 ++ List.replicate 21 baseOffset.zero,
      rfl, rfl, by decide, by decide, by decide, by decide, ?_⟩,
    ⟨(symbolTableX.get tableOffsets).take 2 ++ List.replicate 29 baseOffset.zero,
      rfl, rfl, by decide, by decide, by decide, by decide, ?_⟩,
    init.symbolTables_eq st, by decide, rfl⟩
  · exact ⟨(symbolTableX.get tableLiteralLengths).drop 16, by decide⟩
  · exact ⟨(symbolTableX.get tableMatchLengths).drop 32, by decide⟩
  · exact ⟨(symbolTableX.get tableOffsets).drop 2, by decide⟩

/-! ## Absence of wrap-around in `fillBase` -/

/-- The `uint32` value of `1 << bit` is at most `2 ^ 31`. -/
theorem shl1_le (bit : Nat) : shl1 bit ≤ 2 ^ 31 := by
  unfold shl1 u32
  by_cases h : bit < 32
  · have hpow : 2 ^ bit ≤ 2 ^ 31 := Nat.pow_le_pow_right (by decide) (by omega)
    have hlt : 2 ^ bit < 2 ^ 32 := by omega
    rw [Nat.mod_eq_of_lt hlt]
    exact hpow
  · have hdvd : 2 ^ 32 ∣ 2 ^ bit := Nat.pow_dvd_pow 2 (by omega)
    rw [Nat.mod_eq_zero_of_dvd hdvd]
    exact Nat.zero_le _

/-- After a passed overflow check the addition `base += 1 << bit` stays below
`2 ^ 32`, so the new base is the exact sum. -/
theorem next_base_no_wrap (base bit : Nat) (h : ¬ base > maxInt32) :
    base + shl1 bit < u32 ∧ (base + shl1 bit) % u32 = base + shl1 bit := by
  have hs := shl1_le bit
  have hmax : maxInt32 = 2 ^ 31 - 1 := rfl
  have hu : u32 = 2 ^ 31 + 2 ^ 31 := by decide
  have hlt : base + shl1 bit < u32 := by omega
  exact ⟨hlt, Nat.mod_eq_of_lt hlt⟩

/-- No executed addition of `fillBase` wraps: its operands sum to less than
`2 ^ 32`. -/
theorem fillBase.additions_no_wrap (bits : List Nat) :
    ∀ (base : Nat), ∀ p ∈ fillBase.additions base bits, p.1 ≤ maxInt32 ∧ p.1 + p.2 < u32 := by
  induction bits with
  | nil => intro base p hp; simp [fillBase.additions] at hp
  | cons b rest ih =>
    intro base p hp
    simp only [fillBase.additions] at hp
    split at hp
    · simp at hp
    · rename_i h0
      rcases List.mem_cons.mp hp with rfl | hp
      · exact ⟨Nat.not_lt.mp h0, (next_base_no_wrap base b h0).1⟩
      · exact ih _ p hp

/-- What a normal return of the loop of `fillBase` tells about the destination:
same length, entries below `i` untouched, every entry written from `i` on has a
baseline between the starting base and `math.MaxInt32`, and the written
baselines do not decrease. -/
theorem fillBase.loop_returned (bits : List Nat) :
    ∀ (dst : List baseOffset) (base i : Nat) (out : List baseOffset),
      fillBase.loop dst base i bits = .returned out → i + bits.length ≤ dst.length →
      out.length = dst.length ∧ (∀ j, j < i → out[j]? = dst[j]?) ∧
      (∀ k, k < bits.length →
        ∃ e, out[i + k]? = some e ∧ base ≤ e.baseLine ∧ e.baseLine ≤ maxInt32) ∧
      (∀ k, k + 1 < bits.length →
        ∃ e1 e2, out[i + k]? = some e1 ∧ out[i + k + 1]? = some e2 ∧
          e1.baseLine ≤ e2.baseLine) := by
  induction bits with
  | nil =>
    intro dst base i out h _
    simp only [fillBase.loop, FillOutcome.returned.injEq] at h
    subst h
    exact ⟨rfl, fun _ _ => rfl, fun k hk => absurd hk (Nat.not_lt_zero k),
      fun k hk => absurd hk (Nat.not_lt_zero _)⟩
  | cons b rest ih =>
    intro dst base i out h hlen
    simp only [fillBase.loop] at h
    split at h
    · cases h
    · rename_i h0
      have hlen1 : i + rest.length + 1 ≤ dst.length := by
        simp only [List.length_cons] at hlen
        omega
      obtain ⟨hl, hlow, hent, hadj⟩ := ih (dst.set i ⟨base, b⟩) _ (i + 1) out h
        (by simp only [List.length_set]; omega)
      have hnext := (next_base_no_wrap base b h0).2
      have hi : out[i]? = some ⟨base, b⟩ := by
        rw [hlow i (by omega), List.getElem?_set_self (by omega)]
      refine ⟨by simpa using hl, ?_, ?_, ?_⟩
      · intro j hj
        rw [hlow j (by omega)]
        exact List.getElem?_set_ne (by omega)
      · intro k hk
        cases k with
        | zero => exact ⟨⟨base, b⟩, hi, Nat.le_refl _, Nat.not_lt.mp h0⟩
        | succ k =>
          obtain ⟨e, he, hge, hle⟩ := hent k (by simpa using hk)
          refine ⟨e, ?_, ?_, hle⟩
          · rw [show i + (k + 1) = i + 1 + k by omega]; exact he
          · rw [hnext] at hge; omega
      · intro k hk
        cases k with
        | zero =>
          obtain ⟨e, he, hge, _⟩ := hent 0 (by simpa using hk)
          refine ⟨⟨base, b⟩, e, hi, he, ?_⟩
          rw [hnext] at hge
          show base ≤ e.baseLine
          omega
        | succ k =>
          obtain ⟨e1, e2, h1, h2, h12⟩ := hadj k (by simpa using hk)
          refine ⟨e1, e2, ?_, ?_, h12⟩
          · rw [show i + (k + 1) = i + 1 + k by omega]; exact h1
          · rw [show i + (k + 1) + 1 = i + 1 + k + 1 by omega]; exact h2

/-- On a normal return, the baseline stored in entry `i + k` is the left operand
of the `k`-th executed addition. -/
theorem fillBase.loop_additions (bits : List Nat) :
    ∀ (dst : List baseOffset) (base i : Nat) (out : List baseOffset),
      fillBase.loop dst base i bits = .returned out → i + bits.length ≤ dst.length →
      ∀ k, k < bits.length →
        (out[i + k]?).map baseOffset.baseLine =
          ((fillBase.additions base bits)[k]?).map Prod.fst := by
  induction bits with
  | nil => intro dst base i out _ _ k hk; exact absurd hk (Nat.not_lt_zero k)
  | cons b rest ih =>
    intro dst base i out h hlen k hk
    simp only [fillBase.loop] at h
    simp only [fillBase.additions]
    split at h
    · cases h
    · rename_i h0
      rw [if_neg h0]
      have hlen1 : i + rest.length + 1 ≤ dst.length := by
        simp only [List.length_cons] at hlen
        omega
      have hlen2 : i + 1 + rest.length ≤ (dst.set i ⟨base, b⟩).length := by
        simp only [List.length_set]; omega
      cases k with
      | zero =>
        obtain ⟨_, hlow, _, _⟩ := fillBase.loop_returned rest _ _ (i + 1) out h hlen2
        rw [Nat.add_zero, hlow i (by omega), List.getElem?_set_self (by omega)]
        simp
      | succ k =>
        have := ih _ _ (i + 1) out h hlen2 k (by simpa using hk)
        rw [show i + (k + 1) = i + 1 + k by omega, this]
        simp

/-- C16. No silent wrap-around of the addition in `fillBase`: no executed
`base += 1 << bit` exceeds `2 ^ 32 - 1`, whatever the base and the bit counts;
and when `fillBase` returns normally, every stored `baseLine` is at most
`2 ^ 31 - 1` and the stored baselines are non-decreasing in the index. -/
theorem fillBase_no_wraparound (dst : List baseOffset) (base : Nat) (bits : List Nat) :
    (∀ p ∈ fillBase.additions base bits, p.1 + p.2 < 2 ^ 32) ∧
    ∀ out, fillBase dst base bits = .returned out →
      bits.length = dst.length ∧ out.length = dst.length ∧
      (∀ i, i < bits.length →
        (out[i]?).map baseOffset.baseLine =
          ((fillBase.additions base bits)[i]?).map Prod.fst) ∧
      (∀ i (hi : i < out.length), out[i].baseLine ≤ 2 ^ 31 - 1) ∧
      (∀ i (hi : i + 1 < out.length), out[i].baseLine ≤ out[i + 1].baseLine) := by
  refine ⟨fun p hp => (fillBase.additions_no_wrap bits base p hp).2, ?_⟩
  intro out hret
  unfold fillBase at hret
  split at hret
  · cases hret
  · rename_i hne
    have hlen : bits.length = dst.length := not_not.mp hne
    obtain ⟨hl, _, hent, hadj⟩ :=
      fillBase.loop_returned bits dst base 0 out hret (by omega)
    refine ⟨hlen, hl, ?_, ?_, ?_⟩
    · intro i hi
      simpa using fillBase.loop_additions bits dst base 0 out hret (by omega) i hi
    · intro i hi
      obtain ⟨e, he, _, hle⟩ := hent i (by omega)
      rw [Nat.zero_add, List.getElem?_eq_getElem hi, Option.some.injEq] at he
      rw [he]
      exact hle
    · intro i hi
      obtain ⟨e1, e2, h1, h2, h12⟩ := hadj i (by omega)
      rw [Nat.zero_add, List.getElem?_eq_getElem (by omega), Option.some.injEq] at h1
      rw [Nat.zero_add, List.getElem?_eq_getElem hi, Option.some.injEq] at h2
      rw [h1, h2]
      exact h12

/-- Instance of `fillBase_no_wraparound`: the call with base 1 and bit counts
40, 3, 0 returns normally, although `1 << 40` is `0` in `uint32`. -/
theorem fillBase_no_wraparound_witness :
    fillBase [baseOffset.zero, baseOffset.zero, baseOffset.zero] 1 [40, 3, 0] =
      .returned [⟨1, 40⟩, ⟨1, 3⟩, ⟨9, 0⟩] ∧
    (∀ p ∈ fillBase.additions 1 [40, 3, 0], p.1 + p.2 < 2 ^ 32) ∧
    (∀ i (hi : i < [(⟨1, 40⟩ : baseOffset), ⟨1, 3⟩, ⟨9, 0⟩].length),
      [(⟨1, 40⟩ : baseOffset), ⟨1, 3⟩, ⟨9, 0⟩][i].baseLine ≤ 2 ^ 31 - 1) :=
  have h := fillBase_no_wraparound [baseOffset.zero, baseOffset.zero, baseOffset.zero] 1
    [40, 3, 0]
  have hret : fillBase [baseOffset.zero, baseOffset.zero, baseOffset.zero] 1 [40, 3, 0] =
      .returned [⟨1, 40⟩, ⟨1, 3⟩, ⟨9, 0⟩] := by decide
  ⟨hret, h.1, (h.2 _ hret).2.2.2.1⟩

/-! ## Coverage of the length values -/

/-- In a table that tiles `[lo, hi)`, the value range of every entry lies inside
`[lo, hi)`. -/
theorem tiles_bounds :
    ∀ (t : List baseOffset) (lo hi : Nat), tiles lo t hi = true →
      lo ≤ hi ∧ ∀ (c : Nat) (x : baseOffset), t[c]? = some x →
        lo ≤ x.baseLine ∧ x.baseLine + 2 ^ x.addBits ≤ hi
  | [], lo, hi, h => by
    simp only [tiles, decide_eq_true_eq] at h
    exact ⟨by omega, fun c x hx => by simp at hx⟩
  | y :: rest, lo, hi, h => by
    simp only [tiles, Bool.and_eq_true, decide_eq_true_eq] at h
    obtain ⟨hy, hrest⟩ := h
    obtain ⟨hle, hall⟩ := tiles_bounds rest _ hi hrest
    have hpos : 0 < 2 ^ y.addBits := Nat.pow_pos (by decide)
    refine ⟨by omega, ?_⟩
    intro c x hx
    cases c with
    | zero =>
      simp only [List.getElem?_cons_zero, Option.some.injEq] at hx
      subst hx
      omega
    | succ c =>
      simp only [List.getElem?_cons_succ] at hx
      have := hall c x hx
      omega

/-- In a table that tiles `[lo, hi)`, every value of the interval is
`baseLine[c] + e` for exactly one code `c` and one `e < 2 ^ addBits[c]`. -/
theorem tiles_unique :
    ∀ (t : List baseOffset) (lo hi : Nat), tiles lo t hi = true →
      ∀ v, lo ≤ v → v < hi →
        ∃! p : Nat × Nat, ∃ x, t[p.1]? = some x ∧ p.2 < 2 ^ x.addBits ∧ v = x.baseLine + p.2
  | [], lo, hi, h => by
    intro v h1 h2
    simp only [tiles, decide_eq_true_eq] at h
    omega
  | y :: rest, lo, hi, h => by
    intro v h1 h2
    have hb := tiles_bounds (y :: rest) lo hi h
    simp only [tiles, Bool.and_eq_true, decide_eq_true_eq] at h
    obtain ⟨hy, hrest⟩ := h
    by_cases hv : v < lo + 2 ^ y.addBits
    · refine ⟨(0, v - lo), ⟨y, by simp, by simp only; omega, by simp only; omega⟩, ?_⟩
      rintro ⟨c, e⟩ ⟨x, hx, he, hve⟩
      cases c with
      | zero =>
        simp only [List.getElem?_cons_zero, Option.some.injEq] at hx
        subst hx
        simp only [Prod.mk.injEq, true_and]
        simp only at hve
        omega
      | succ c =>
        simp only [List.getElem?_cons_succ] at hx
        have := (tiles_bounds rest _ hi hrest).2 c x hx
        simp only at hve
        omega
    · obtain ⟨⟨c, e⟩, ⟨x, hx, he, hve⟩, huniq⟩ :=
        tiles_unique rest _ hi hrest v (by omega) h2
      refine ⟨(c + 1, e), ⟨x, by simpa using hx, he, hve⟩, ?_⟩
      rintro ⟨c2, e2⟩ ⟨x2, hx2, he2, hve2⟩
      cases c2 with
      | zero =>
        simp only [List.getElem?_cons_zero, Option.some.injEq] at hx2
        subst hx2
        simp only at hve2 he2
        omega
      | succ c2 =>
        simp only [List.getElem?_cons_succ] at hx2
        have := huniq (c2, e2) ⟨x2, hx2, he2, hve2⟩
        simp only [Prod.mk.injEq] at this ⊢
        omega

/-- C14. Unique coverage of the length values: after `init`, every `v` with
`0 ≤ v < 131072` is `baseLine[c] + e` for exactly one literal-length code `c`
(of the 36) and one `e < 2 ^ addBits[c]`, and every `v` with `3 ≤ v < 131075` is
`baseLine[c] + e` for exactly one match-length code `c` (of the 53) and one
`e < 2 ^ addBits[c]`; across each whole table the value range of a code ends
where the range of the next code begins. -/
theorem length_values_unique_coverage (st : Array3 (List baseOffset)) :
    init.symbolTables maxOffsetBits st = .ok symbolTableX ∧
    (∀ v, v < 131072 →
      ∃! p : Nat × Nat, ∃ x, (symbolTableX.get tableLiteralLengths)[p.1]? = some x ∧
        p.2 < 2 ^ x.addBits ∧ v = x.baseLine + p.2) ∧
    (∀ v, 3 ≤ v → v < 131075 →
      ∃! p : Nat × Nat, ∃ x, (symbolTableX.get tableMatchLengths)[p.1]? = some x ∧
        p.2 < 2 ^ x.addBits ∧ v = x.baseLine + p.2) ∧
    (symbolTableX.get tableLiteralLengths).length = 36 ∧
    (symbolTableX.get tableMatchLengths).length = 53 ∧
    (∀ (i : Nat) (hi : i + 1 < (symbolTableX.get tableLiteralLengths).length),
      (symbolTableX.get tableLiteralLengths)[i + 1].baseLine =
        (symbolTableX.get tableLiteralLengths)[i].baseLine +
          2 ^ (symbolTableX.get tableLiteralLengths)[i].addBits) ∧
    (∀ (i : Nat) (hi : i + 1 < (symbolTableX.get tableMatchLengths).length),
      (symbolTableX.get tableMatchLengths)[i + 1].baseLine =
        (symbolTableX.get tableMatchLengths)[i].baseLine +
          2 ^ (symbolTableX.get tableMatchLengths)[i].addBits) := by
  have hLL : tiles 0 (symbolTableX.get tableLiteralLengths) 131072 = true := by decide
  have hML : tiles 3 (symbolTableX.get tableMatchLengths) 131075 = true := by decide
  refine ⟨init.symbolTables_eq st, ?_, ?_, by decide, by decide, ?_, ?_⟩
  · intro v hv
    exact tiles_unique _ 0 131072 hLL v (Nat.zero_le v) hv
  · intro v h3 hv
    exact tiles_unique _ 3 131075 hML v h3 hv
  · intro i hi
    simpa using adjacent_of_check
      (fun x y : baseOffset => decide (y.baseLine = x.baseLine + 2 ^ x.addBits)) _ 0
      (by decide) i (Nat.zero_le i) hi
  · intro i hi
    simpa using adjacent_of_check
      (fun x y : baseOffset => decide (y.baseLine = x.baseLine + 2 ^ x.addBits)) _ 0
      (by decide) i (Nat.zero_le i) hi

/-! ## Failure policy of the second half of `init` -/

/-- An iteration in which `buildDtable` returns an error panics with that error
and leaves the decoder as `buildDtable` left it. -/
theorem init.build_fail_build {D E : Type}
    (buildDtable : fseDecoder D → fseDecoder D × Option E)
    (transform : fseDecoder D → List baseOffset → fseDecoder D × Option E)
    (g : Globals D) (i : tableIndex) (e : E)
    (h : (buildDtable (init.defaults i (g.fsePredef.get i))).2 = some e) :
    init.build buildDtable transform g i =
      .error (.buildingTable i e,
        ⟨g.fsePredef.set i (buildDtable (init.defaults i (g.fsePredef.get i))).1,
          g.symbolTableX⟩) := by
  unfold init.build
  dsimp only
  generalize buildDtable (init.defaults i (g.fsePredef.get i)) = r at h
  obtain ⟨f1, o⟩ := r
  simp only at h
  subst h
  rfl

/-- An iteration in which `buildDtable` succeeds and `transform` returns an error
panics with that error and leaves the decoder as `transform` left it. -/
theorem init.build_fail_transform {D E : Type}
    (buildDtable : fseDecoder D → fseDecoder D × Option E)
    (transform : fseDecoder D → List baseOffset → fseDecoder D × Option E)
    (g : Globals D) (i : tableIndex) (e : E)
    (hb : (buildDtable (init.defaults i (g.fsePredef.get i))).2 = none)
    (ht : (transform (buildDtable (init.defaults i (g.fsePredef.get i))).1
      (g.symbolTableX.get i)).2 = some e) :
    init.build buildDtable transform g i =
      .error (.buildingTable i e,
        ⟨g.fsePredef.set i
          (transform (buildDtable (init.defaults i (g.fsePredef.get i))).1
            (g.symbolTableX.get i)).1,
          g.symbolTableX⟩) := by
  unfold init.build
  dsimp only
  generalize buildDtable (init.defaults i (g.fsePredef.get i)) = r at hb ht
  obtain ⟨f1, o⟩ := r
  simp only at hb ht
  subst hb
  dsimp only
  generalize transform f1 (g.symbolTableX.get i) = r2 at ht
  obtain ⟨f2, o2⟩ := r2
  simp only at ht
  subst ht
  rfl

/-- An iteration in which both external calls succeed stores the transformed
decoder with `preDefined = true`. -/
theorem init.build_ok {D E : Type}
    (buildDtable : fseDecoder D → fseDecoder D × Option E)
    (transform : fseDecoder D → List baseOffset → fseDecoder D × Option E)
    (g : Globals D) (i : tableIndex)
    (hb : (buildDtable (init.defaults i (g.fsePredef.get i))).2 = none)
    (ht : (transform (buildDtable (init.defaults i (g.fsePredef.get i))).1
      (g.symbolTableX.get i)).2 = none) :
    init.build buildDtable transform g i =
      .ok ⟨g.fsePredef.set i
          { (transform (buildDtable (init.defaults i (g.fsePredef.get i))).1
              (g.symbolTableX.get i)).1 with preDefined := true },
        g.symbolTableX⟩ := by
  unfold init.build
  dsimp only
  generalize buildDtable (init.defaults i (g.fsePredef.get i)) = r at hb ht
  obtain ⟨f1, o⟩ := r
  simp only at hb ht
  subst hb
  dsimp only
  generalize transform f1 (g.symbolTableX.get i) = r2 at ht
  obtain ⟨f2, o2⟩ := r2
  simp only at ht
  subst ht
  rfl

/-- The function `init` as three iterations in the order literal lengths, offsets,
match lengths, started once the transformation tables are in place. -/
theorem init_unfold {D E : Type}
    (buildDtable : fseDecoder D → fseDecoder D × Option E)
    (transform : fseDecoder D → List baseOffset → fseDecoder D × Option E)
    (g : Globals D) :
    init maxOffsetBits buildDtable transform g =
      match init.build buildDtable transform { g with symbolTableX := symbolTableX }
        tableLiteralLengths with
      | .error e => .error e
      | .ok g1 =>
        match init.build buildDtable transform g1 tableOffsets with
        | .error e => .error e
        | .ok g2 => init.build buildDtable transform g2 tableMatchLengths := by
  simp only [init, init.symbolTables_eq, List.foldlM, bind, Except.bind, pure, Except.pure]
  generalize init.build buildDtable transform { g with symbolTableX := symbolTableX }
    tableLiteralLengths = r1
  cases r1 with
  | error e => rfl
  | ok g1 =>
    dsimp only
    generalize init.build buildDtable transform g1 tableOffsets = r2
    cases r2 with
    | error e => rfl
    | ok g2 =>
      dsimp only
      generalize init.build buildDtable transform g2 tableMatchLengths = r3
      cases r3 <;> rfl

/-- C12. Failure policy of `init`, with `buildDtable` and `transform` arbitrary
functions that may return an error.  If the external calls succeed for the
alphabets before `i` and `buildDtable` (first part) or `transform` (second part)
returns an error for alphabet `i`, then `init` panics with that error at `i`:
decoder `i` is left exactly as the failing call left it, so its `preDefined` flag
is not assigned, the earlier decoders are finished and the later ones untouched.
If no call returns an error (third part), `init` completes and every decoder is
the result of `transform` on the table of its own index, with
`preDefined = true`.  When the external calls do not touch `preDefined`
(fourth part), the decoder left by a failing call still has the flag it had
before `init`. -/
theorem init_failure_policy {D E : Type}
    (buildDtable : fseDecoder D → fseDecoder D × Option E)
    (transform : fseDecoder D → List baseOffset → fseDecoder D × Option E)
    (g : Globals D) :
    (∀ (i : tableIndex) (e : E),
      (∀ j, j < i → (init.built buildDtable g j).2 = none ∧
        (init.transformed buildDtable transform g j).2 = none) →
      (init.built buildDtable g i).2 = some e →
      ∃ g2, init maxOffsetBits buildDtable transform g = .error (.buildingTable i e, g2) ∧
        g2.symbolTableX = symbolTableX ∧
        g2.fsePredef.get i = (init.built buildDtable g i).1 ∧
        (∀ j, j < i → g2.fsePredef.get j =
          { (init.transformed buildDtable transform g j).1 with preDefined := true }) ∧
        (∀ j, i < j → g2.fsePredef.get j = g.fsePredef.get j)) ∧
    (∀ (i : tableIndex) (e : E),
      (∀ j, j < i → (init.built buildDtable g j).2 = none ∧
        (init.transformed buildDtable transform g j).2 = none) →
      (init.built buildDtable g i).2 = none →
      (init.transformed buildDtable transform g i).2 = some e →
      ∃ g2, init maxOffsetBits buildDtable transform g = .error (.buildingTable i e, g2) ∧
        g2.symbolTableX = symbolTableX ∧
        g2.fsePredef.get i = (init.transformed buildDtable transform g i).1 ∧
        (∀ j, j < i → g2.fsePredef.get j =
          { (init.transformed buildDtable transform g j).1 with preDefined := true }) ∧
        (∀ j, i < j → g2.fsePredef.get j = g.fsePredef.get j)) ∧
    ((∀ j, (init.built buildDtable g j).2 = none ∧
        (init.transformed buildDtable transform g j).2 = none) →
      ∃ g2, init maxOffsetBits buildDtable transform g = .ok g2 ∧
        g2.symbolTableX = symbolTableX ∧
        ∀ j, g2.fsePredef.get j =
            { (init.transformed buildDtable transform g j).1 with preDefined := true } ∧
          (g2.fsePredef.get j).preDefined = true) ∧
    ((∀ f, (buildDtable f).1.preDefined = f.preDefined) →
      (∀ f t, (transform f t).1.preDefined = f.preDefined) →
      ∀ i, (init.built buildDtable g i).1.preDefined = (g.fsePredef.get i).preDefined ∧
        (init.transformed buildDtable transform g i).1.preDefined =
          (g.fsePredef.get i).preDefined) := by
  refine ⟨?_, ?_, ?_, ?_⟩
  · intro i e hprev hfail
    rw [init_unfold]
    match i with
    | 0 =>
      rw [init.build_fail_build buildDtable transform _ _ e]
      · refine ⟨_, rfl, rfl, rfl, ?_, ?_⟩
        · intro j hj; fin_cases j <;> first | rfl | exact absurd hj (by decide)
        · intro j hj; fin_cases j <;> first | rfl | exact absurd hj (by decide)
      · exact hfail
    | 1 =>
      obtain ⟨hb0, ht0⟩ := hprev 0 (by decide)
      rw [init.build_ok buildDtable transform]
      · dsimp only
        rw [init.build_fail_build buildDtable transform _ _ e]
        · refine ⟨_, rfl, rfl, rfl, ?_, ?_⟩
          · intro j hj; fin_cases j <;> first | rfl | exact absurd hj (by decide)
          · intro j hj; fin_cases j <;> first | rfl | exact absurd hj (by decide)
        · exact hfail
      · exact hb0
      · exact ht0
    | 2 =>
      obtain ⟨hb0, ht0⟩ := hprev 0 (by decide)
      obtain ⟨hb1, ht1⟩ := hprev 1 (by decide)
      rw [init.build_ok buildDtable transform]
      · dsimp only
        rw [init.build_ok buildDtable transform]
        · dsimp only
          rw [init.build_fail_build buildDtable transform _ _ e]
          · refine ⟨_, rfl, rfl, rfl, ?_, ?_⟩
            · intro j hj; fin_cases j <;> first | rfl | exact absurd hj (by decide)
            · intro j hj; fin_cases j <;> first | rfl | exact absurd hj (by decide)
          · exact hfail
        · exact hb1
        · exact ht1
      · exact hb0
      · exact ht0
  · intro i e hprev hnone hfail
    rw [init_unfold]
    match i with
    | 0 =>
      rw [init.build_fail_transform buildDtable transform _ _ e]
      · refine ⟨_, rfl, rfl, rfl, ?_, ?_⟩
        · intro j hj; fin_cases j <;> first | rfl | exact absurd hj (by decide)
        · intro j hj; fin_cases j <;> first | rfl | exact absurd hj (by decide)
      · exact hnone
      · exact hfail
    | 1 =>
      obtain ⟨hb0, ht0⟩ := hprev 0 (by decide)
      rw [init.build_ok buildDtable transform]
      · dsimp only
        rw [init.build_fail_transform buildDtable transform _ _ e]
        · refine ⟨_, rfl, rfl, rfl, ?_, ?_⟩
          · intro j hj; fin_cases j <;> first | rfl | exact absurd hj (by decide)
          · intro j hj; fin_cases j <;> first | rfl | exact absurd hj (by decide)
        · exact hnone
        · exact hfail
      · exact hb0
      · exact ht0
    | 2 =>
      obtain ⟨hb0, ht0⟩ := hprev 0 (by decide)
      obtain ⟨hb1, ht1⟩ := hprev 1 (by decide)
      rw [init.build_ok buildDtable transform]
      · dsimp only
        rw [init.build_ok buildDtable transform]
        · dsimp only
          rw [init.build_fail_transform buildDtable transform _ _ e]
          · refine ⟨_, rfl, rfl, rfl, ?_, ?_⟩
            · intro j hj; fin_cases j <;> first | rfl | exact absurd hj (by decide)
            · intro j hj; fin_cases j <;> first | rfl | exact absurd hj (by decide)
          · exact hnone
          · exact hfail
        · exact hb1
        · exact ht1
      · exact hb0
      · exact ht0
  · intro hall
    rw [init_unfold]
    obtain ⟨hb0, ht0⟩ := hall 0
    obtain ⟨hb1, ht1⟩ := hall 1
    obtain ⟨hb2, ht2⟩ := hall 2
    rw [init.build_ok buildDtable transform]
    · dsimp only
      rw [init.build_ok buildDtable transform]
      · dsimp only
        rw [init.build_ok buildDtable transform]
        · dsimp only
          refine ⟨_, rfl, rfl, ?_⟩
          intro j
          fin_cases j <;> exact ⟨rfl, rfl⟩
        · exact hb2
        · exact ht2
      · exact hb1
      · exact ht1
    · exact hb0
    · exact ht0
  · intro hb ht i
    have hd : (init.defaults i (g.fsePredef.get i)).preDefined =
        (g.fsePredef.get i).preDefined := by
      match i with
      | 0 => rfl
      | 1 => rfl
      | 2 => rfl
    have h1 : (init.built buildDtable g i).1.preDefined = (g.fsePredef.get i).preDefined := by
      unfold init.built
      rw [hb, hd]
    refine ⟨h1, ?_⟩
    unfold init.transformed
    rw [ht, h1]

/-- Instance of `init_failure_policy`: on zero-valued globals, with a
`buildDtable` that always succeeds and a `transform` that rejects the decoder of
29 symbols with error 7, `init` panics at the offsets; the offset decoder keeps
`preDefined = false` and the literal-length decoder, finished before, has
`preDefined = true`. -/
theorem init_failure_policy_witness :
    ∃ g2, init maxOffsetBits (fun f : fseDecoder Unit => (f, (none : Option Nat)))
        (fun f _ => (f, if f.symbolLen = 29 then some 7 else none)) (Globals.zero 256 ()) =
        .error (.buildingTable tableOffsets 7, g2) ∧
      (g2.fsePredef.get tableOffsets).preDefined = false ∧
      (g2.fsePredef.get tableLiteralLengths).preDefined = true := by
  obtain ⟨g2, h, _, hi, hlt, _⟩ :=
    (init_failure_policy (fun f : fseDecoder Unit => (f, (none : Option Nat)))
      (fun f _ => (f, if f.symbolLen = 29 then some 7 else none))
      (Globals.zero 256 ())).2.1 tableOffsets 7
      (by intro j hj; fin_cases j <;> first | exact ⟨rfl, rfl⟩ | exact absurd hj (by decide))
      rfl rfl
  refine ⟨g2, h, ?_, ?_⟩
  · rw [hi]; rfl
  · rw [hlt tableLiteralLengths (by decide)]

end Zstd
